import Mathlib

/-!
A shallow embedding of `src/minesweeper.py` (the `Sentence` knowledge
representation and the `MinesweeperAI` agent) together with theorems
settling the specification claims about it.

Modelling conventions, justified line by line against the source:

* Board coordinates are pairs of (unbounded) Python integers: `Cell := Int × Int`.
* Python `set`s of cells become `Finset Cell`; sentence counts are `Int`
  (Python ints, and `deduce_knowledge` can in principle subtract).
* The knowledge base is a `List Sentence` in append order, as in Python.
* `Sentence.__eq__` compares cell set and count, which is exactly
  equality of the `Sentence` structure below.
* In `clean_knowledge` the source compares statements by object identity
  (`is not`) while `list.remove` compares by `__eq__`.  Every entry of
  `self.knowledge` is a freshly constructed object (appends only ever
  append fresh `Sentence()` objects), so object identity coincides with
  a tag given to each list position, which the embedding makes explicit
  (`TSentence`).  Python's `for ... in lst` cursor semantics under
  concurrent `lst.remove` (the cursor index advances by one each step
  over the current, possibly shrunk, list) is modelled index by index;
  the fuel argument only bounds the cursor and is always called with
  enough fuel, since the cursor stops within the initial length and the
  list never grows during cleanup.
* The certainty-sweep loops `for cell in safes.copy(): self.mark_safe(cell)`
  and the analogous `mark_mine` loop iterate over a snapshot of a Python
  set in unspecified order.  Marking distinct cells commutes (each mark
  inserts one cell into a global set, erases it from every sentence's
  cell set, and decrements the count once iff the cell was present), so
  the loop's net effect is the bulk update `mark_safe_all` /
  `mark_mine_all` below, independent of the iteration order.
* `for cell in self.safes:` in `make_safe_move` also iterates a set in
  unspecified order; the embedding fixes the lexicographic order (any
  fixed order realises one legal Python behaviour).
* `random.randrange` draws in `make_random_move` are modelled by an
  explicit stream of candidate cells; the retry loop returns the first
  qualifying element of the stream.
* The `print` debugging statements in `add_knowledge` have no effect on
  the state and are dropped.
-/

namespace Minesweeper

abbrev Cell := Int × Int

/-- Lexicographic order on cells, used only to fix one concrete iteration
order for Python's unordered set iteration in `make_safe_move`. -/
def cellLe (a b : Cell) : Prop := a.1 < b.1 ∨ (a.1 = b.1 ∧ a.2 ≤ b.2)

instance : DecidableRel cellLe := fun a b => by unfold cellLe; infer_instance

instance : IsTrans Cell cellLe := by
  constructor; intro a b c hab hbc; unfold cellLe at *; omega

instance : IsAntisymm Cell cellLe := by
  constructor; intro a b hab hba
  unfold cellLe at *
  have h1 : a.1 = b.1 := by omega
  have h2 : a.2 = b.2 := by omega
  exact Prod.ext h1 h2

instance : IsTotal Cell cellLe := by
  constructor; intro a b; unfold cellLe; omega

/-- `class Sentence`: a set of board cells and a count of how many of
those cells are mines.  `__eq__` compares both fields. -/
structure Sentence where
  cells : Finset Cell
  count : Int
deriving DecidableEq

namespace Sentence

/-- `known_mines`: if the number of cells equals the count, all cells are
mines (returns `self.cells`); otherwise Python implicitly returns `None`. -/
def known_mines (s : Sentence) : Option (Finset Cell) :=
  if (s.cells.card : Int) = s.count then some s.cells else none

/-- `known_safes`: if the count is 0, all cells are safe. -/
def known_safes (s : Sentence) : Option (Finset Cell) :=
  if s.count = 0 then some s.cells else none

/-- `Sentence.mark_mine`: remove the cell and decrement the count, if present. -/
def mark_mine (s : Sentence) (cell : Cell) : Sentence :=
  if cell ∈ s.cells then ⟨s.cells.erase cell, s.count - 1⟩ else s

/-- `Sentence.mark_safe`: remove the cell without touching the count, if present. -/
def mark_safe (s : Sentence) (cell : Cell) : Sentence :=
  if cell ∈ s.cells then ⟨s.cells.erase cell, s.count⟩ else s

end Sentence

/-- The mutable state of `class MinesweeperAI`. -/
structure MinesweeperAI where
  height : Int
  width : Int
  moves_made : Finset Cell
  mines : Finset Cell
  safes : Finset Cell
  knowledge : List Sentence
deriving DecidableEq

/-- `MinesweeperAI.__init__(height, width)`. -/
def MinesweeperAI.init (height width : Int) : MinesweeperAI :=
  ⟨height, width, ∅, ∅, ∅, []⟩

/-- `MinesweeperAI.mark_mine`: add to `self.mines` and mark the cell in
every sentence of the knowledge base. -/
def MinesweeperAI.mark_mine (ai : MinesweeperAI) (cell : Cell) : MinesweeperAI :=
  { ai with
    mines := insert cell ai.mines
    knowledge := ai.knowledge.map (fun s => s.mark_mine cell) }

/-- `MinesweeperAI.mark_safe`: add to `self.safes` and mark the cell in
every sentence of the knowledge base. -/
def MinesweeperAI.mark_safe (ai : MinesweeperAI) (cell : Cell) : MinesweeperAI :=
  { ai with
    safes := insert cell ai.safes
    knowledge := ai.knowledge.map (fun s => s.mark_safe cell) }

/-- Net effect of `for cell in cs.copy(): self.mark_safe(cell)` over a
snapshot `cs`: the marks on distinct cells commute, so the loop adds all
of `cs` to `self.safes` and removes `cs` from every sentence's cells
(counts untouched). -/
def MinesweeperAI.mark_safe_all (ai : MinesweeperAI) (cs : Finset Cell) : MinesweeperAI :=
  { ai with
    safes := ai.safes ∪ cs
    knowledge := ai.knowledge.map (fun s => ⟨s.cells \ cs, s.count⟩) }

/-- Net effect of `for cell in cs.copy(): self.mark_mine(cell)` over a
snapshot `cs`: all of `cs` joins `self.mines`, every sentence loses
`cs` from its cells and its count drops by one per cell that was present. -/
def MinesweeperAI.mark_mine_all (ai : MinesweeperAI) (cs : Finset Cell) : MinesweeperAI :=
  { ai with
    mines := ai.mines ∪ cs
    knowledge := ai.knowledge.map
      (fun s => ⟨s.cells \ cs, s.count - ((s.cells ∩ cs).card : Int)⟩) }

/-- `get_neighbors` (lines 290-307): for `r`, `c` in `range(-1, 2)` keep
`(i - r, j - c)` when in bounds.  Note that `r = c = 0` is NOT skipped,
so the cell itself is among the results when it is in bounds. -/
def get_neighbors_core (height width : Int) (cell : Cell) : List Cell :=
  ([-1, 0, 1] : List Int).flatMap (fun r =>
    ([-1, 0, 1] : List Int).filterMap (fun c =>
      if 0 ≤ cell.1 - r ∧ cell.1 - r < height ∧ 0 ≤ cell.2 - c ∧ cell.2 - c < width
      then some (cell.1 - r, cell.2 - c) else none))

def MinesweeperAI.get_neighbors (ai : MinesweeperAI) (cell : Cell) : List Cell :=
  get_neighbors_core ai.height ai.width cell

/-- The sentence built in `add_knowledge` when `count > 0`:
`Sentence([cell for cell in neighbors if cell not in self.safes], count)`. -/
def MinesweeperAI.new_sentence (ai : MinesweeperAI) (neighbors : List Cell) (count : Int) :
    Sentence :=
  ⟨(neighbors.filter (fun c => decide (c ∉ ai.safes))).toFinset, count⟩

/-- Steps 1-2 of `add_knowledge`: record the move and mark the cell safe. -/
def MinesweeperAI.after_mark (ai : MinesweeperAI) (cell : Cell) : MinesweeperAI :=
  ({ ai with moves_made := insert cell ai.moves_made }).mark_safe cell

/-- The `if count > 0` branch of `add_knowledge`: append the new sentence
built from the neighbors not already confirmed safe. -/
def MinesweeperAI.add_knowledge_mid (ai : MinesweeperAI) (cell : Cell) (count : Int) :
    MinesweeperAI :=
  if 0 < count then
    { ai.after_mark cell with
      knowledge := (ai.after_mark cell).knowledge ++
        [(ai.after_mark cell).new_sentence ((ai.after_mark cell).get_neighbors cell) count] }
  else ai.after_mark cell

/-- `add_knowledge` up to (and including) the `count > 0` / `count == 0`
branches, i.e. everything before the `if len(self.knowledge) < 1` check;
when `count == 0` every neighbor not yet confirmed safe is marked safe,
in list order (the neighbor list has no duplicates, so the evolving
`self.safes` check only filters cells that were already safe). -/
def MinesweeperAI.add_knowledge_pre (ai : MinesweeperAI) (cell : Cell) (count : Int) :
    MinesweeperAI :=
  if count = 0 then
    ((ai.after_mark cell).get_neighbors cell).foldl
      (fun t n => if n ∉ t.safes then t.mark_safe n else t)
      (ai.add_knowledge_mid cell count)
  else ai.add_knowledge_mid cell count

/-- The `known_safes` branch of one certainty-sweep iteration at cursor
position `i` (out-of-range reads return the inert sentence `⟨∅, 0⟩`,
which trips neither branch — the cursor never actually leaves the range). -/
def sweepSafes (ai : MinesweeperAI) (i : Nat) : MinesweeperAI :=
  match (ai.knowledge.getD i ⟨∅, 0⟩).known_safes with
  | some cs => if cs.Nonempty then ai.mark_safe_all cs else ai
  | none => ai

/-- The `known_mines` branch of one certainty-sweep iteration at cursor
position `i`. -/
def sweepMines (ai : MinesweeperAI) (i : Nat) : MinesweeperAI :=
  match (ai.knowledge.getD i ⟨∅, 0⟩).known_mines with
  | some cs => if cs.Nonempty then ai.mark_mine_all cs else ai
  | none => ai

/-- One iteration of the certainty sweep (`for sentence in self.knowledge:`
at lines 225-236) at cursor position `i`.  The list itself is not changed
by marking, so the original index range stays valid; the sentence is
re-read by `sweepMines` because the safes branch mutates it in place. -/
def sweepStep (ai : MinesweeperAI) (i : Nat) : MinesweeperAI :=
  sweepMines (sweepSafes ai i) i

/-- The full certainty sweep: one pass over the knowledge list. -/
def MinesweeperAI.sweep (ai : MinesweeperAI) : MinesweeperAI :=
  (List.range ai.knowledge.length).foldl sweepStep ai

/-- Python `set.symmetric_difference`. -/
def symmetric_difference (a b : Finset Cell) : Finset Cell := (a \ b) ∪ (b \ a)

/-- `deduce_knowledge` (lines 309-329): collect, for every ordered pair of
sentences where the second has different cells, non-empty cells and is a
subset of the first, the sentence over the symmetric difference with the
count difference; then append all deductions. -/
def MinesweeperAI.deduce_knowledge (ai : MinesweeperAI) : MinesweeperAI :=
  let deductions := ai.knowledge.flatMap (fun sentence =>
    ai.knowledge.filterMap (fun subsentence =>
      if subsentence.cells ≠ sentence.cells ∧ 0 < subsentence.cells.card ∧
          subsentence.cells ⊆ sentence.cells
      then some ⟨symmetric_difference sentence.cells subsentence.cells,
                 sentence.count - subsentence.count⟩
      else none))
  { ai with knowledge := ai.knowledge ++ deductions }

/-- A sentence tagged with its object identity (list entries are always
distinct freshly-allocated objects, so tags are the original positions). -/
structure TSentence where
  id : Nat
  val : Sentence
deriving DecidableEq

/-- `list.remove(v)`: drop the first element that compares `__eq__`-equal
(cells and count; the identity tag is ignored, as in Python). -/
def removeFirst (l : List TSentence) (v : Sentence) : List TSentence :=
  match l with
  | [] => []
  | x :: xs => if x.val = v then xs else x :: removeFirst xs v

def tagFrom (n : Nat) : List Sentence → List TSentence
  | [] => []
  | s :: rest => ⟨n, s⟩ :: tagFrom (n + 1) rest

/-- The inner loop of `clean_knowledge`
(`for duplicates in self.knowledge: ...`), cursor at `j`: when the entry
under the cursor is a different object with the same cell set, remove the
first `__eq__`-equal entry, then advance the cursor over the current list. -/
def cleanInner (sentence : TSentence) : List TSentence → Nat → Nat → List TSentence
  | l, _, 0 => l
  | l, j, fuel + 1 =>
    if h : j < l.length then
      cleanInner sentence
        (if (l.get ⟨j, h⟩).id ≠ sentence.id ∧ (l.get ⟨j, h⟩).val.cells = sentence.val.cells
         then removeFirst l (l.get ⟨j, h⟩).val else l)
        (j + 1) fuel
    else l

/-- The outer loop of `clean_knowledge`, cursor at `i`: possibly remove
the current sentence when its cells are empty, then run the duplicate
scan, then advance the cursor (Python's iterator does not compensate for
the removals, which is the remove-while-iterating defect). -/
def cleanOuter : List TSentence → Nat → Nat → List TSentence
  | l, _, 0 => l
  | l, i, fuel + 1 =>
    if h : i < l.length then
      cleanOuter
        (cleanInner (l.get ⟨i, h⟩)
          (if (l.get ⟨i, h⟩).val.cells.card = 0
           then removeFirst l (l.get ⟨i, h⟩).val else l)
          0
          (if (l.get ⟨i, h⟩).val.cells.card = 0
           then removeFirst l (l.get ⟨i, h⟩).val else l).length)
        (i + 1) fuel
    else l

/-- `clean_knowledge` (lines 331-344). -/
def MinesweeperAI.clean_knowledge (ai : MinesweeperAI) : MinesweeperAI :=
  { ai with
    knowledge :=
      (cleanOuter (tagFrom 0 ai.knowledge) 0 (tagFrom 0 ai.knowledge).length).map
        TSentence.val }

/-- `add_knowledge` (lines 183-249): record the move, mark the cell safe,
build the new sentence (`count > 0`) or mark the neighbors safe
(`count == 0`), return early when the knowledge base is empty, otherwise
run one certainty sweep, then subset deduction, then cleanup. -/
def MinesweeperAI.add_knowledge (ai : MinesweeperAI) (cell : Cell) (count : Int) :
    MinesweeperAI :=
  if (ai.add_knowledge_pre cell count).knowledge.length < 1 then
    ai.add_knowledge_pre cell count
  else
    (((ai.add_knowledge_pre cell count).sweep).deduce_knowledge).clean_knowledge

/-- The state of `add_knowledge` just after the certainty sweep (before
subset deduction); used to express that nothing after the sweep marks
any further cell. -/
def MinesweeperAI.after_sweep (ai : MinesweeperAI) (cell : Cell) (count : Int) :
    MinesweeperAI :=
  if (ai.add_knowledge_pre cell count).knowledge.length < 1 then
    ai.add_knowledge_pre cell count
  else
    (ai.add_knowledge_pre cell count).sweep

/-- `make_safe_move` (lines 251-265): `None` when `self.safes` and
`self.moves_made` have equal size, else the first safe cell (in the
embedding's fixed iteration order) not yet played; `None` if the loop
finds nothing. -/
def MinesweeperAI.make_safe_move (ai : MinesweeperAI) : Option Cell :=
  if ai.safes.card = ai.moves_made.card then none
  else (ai.safes.sort cellLe).find? (fun c => decide (c ∉ ai.moves_made))

/-- `make_random_move` (lines 267-288): `None` when
`len(self.moves_made) == width*height - len(self.mines)`; otherwise the
retry loop yields the first drawn cell that is neither played nor a
known mine.  `randoms` is the stream of `random.randrange` draws. -/
def MinesweeperAI.make_random_move (ai : MinesweeperAI) (randoms : List Cell) : Option Cell :=
  if (ai.moves_made.card : Int) = ai.height * ai.width - (ai.mines.card : Int) then none
  else randoms.find? (fun m => decide (m ∉ ai.moves_made ∧ m ∉ ai.mines))

/-!
## Semantics: truth with respect to a fixed hidden mine set

The external grid (`class Minesweeper`) places a fixed set `M` of mines;
`nearby_mines(cell)` counts the mines within one row and one column of
`cell`, the cell itself excluded.  An observation fed to `add_knowledge`
is well formed when the probed cell is not a mine and the count is that
neighbour mine count.
-/

/-- A sentence is true for mine set `M` when its count is exactly the
number of its cells that are mines. -/
def SentenceTrue (M : Finset Cell) (s : Sentence) : Prop :=
  s.count = ((s.cells ∩ M).card : Int)

/-- Soundness of the agent state for mine set `M`: every confirmed mine
is a mine, every confirmed safe cell is not, and every sentence in the
knowledge base is true. -/
def Sound (M : Finset Cell) (ai : MinesweeperAI) : Prop :=
  ai.mines ⊆ M ∧ (∀ c ∈ ai.safes, c ∉ M) ∧ ∀ s ∈ ai.knowledge, SentenceTrue M s

/-- A well-formed observation on a fixed grid with mine set `M`: the
probed cell is not a mine, and the reported count is the number of mines
among the in-bounds cells within one row and one column.  (The probed
cell appears in `get_neighbors` but is not a mine, so including it makes
no difference; this matches `Minesweeper.nearby_mines`, which skips the
cell itself.) -/
def ValidObs (height width : Int) (M : Finset Cell) (cell : Cell) (count : Int) : Prop :=
  cell ∉ M ∧ count = (((get_neighbors_core height width cell).toFinset ∩ M).card : Int)

instance (height width : Int) (M : Finset Cell) (cell : Cell) (count : Int) :
    Decidable (ValidObs height width M cell count) := by
  unfold ValidObs; infer_instance

/-! ## Soundness is preserved by every marking operation -/

theorem sentenceTrue_mark_safe {M : Finset Cell} {s : Sentence} {c : Cell}
    (hc : c ∉ M) (hs : SentenceTrue M s) : SentenceTrue M (s.mark_safe c) := by
  unfold Sentence.mark_safe
  by_cases hmem : c ∈ s.cells
  · rw [if_pos hmem]
    unfold SentenceTrue at *
    have he : s.cells.erase c ∩ M = s.cells ∩ M := by
      ext x
      simp only [Finset.mem_inter, Finset.mem_erase]
      constructor
      · rintro ⟨⟨_, h1⟩, h2⟩; exact ⟨h1, h2⟩
      · rintro ⟨h1, h2⟩; exact ⟨⟨fun e => hc (e ▸ h2), h1⟩, h2⟩
    simpa [he] using hs
  · rwa [if_neg hmem]

theorem sentenceTrue_mark_mine {M : Finset Cell} {s : Sentence} {c : Cell}
    (hc : c ∈ M) (hs : SentenceTrue M s) : SentenceTrue M (s.mark_mine c) := by
  unfold Sentence.mark_mine
  by_cases hmem : c ∈ s.cells
  · rw [if_pos hmem]
    unfold SentenceTrue at *
    have he : s.cells.erase c ∩ M = (s.cells ∩ M).erase c := by
      ext x
      simp only [Finset.mem_inter, Finset.mem_erase]
      tauto
    have hmem2 : c ∈ s.cells ∩ M := Finset.mem_inter.mpr ⟨hmem, hc⟩
    have hpos : 0 < (s.cells ∩ M).card := Finset.card_pos.mpr ⟨c, hmem2⟩
    simp only [he, Finset.card_erase_of_mem hmem2]
    omega
  · rwa [if_neg hmem]

theorem sound_mark_safe {M : Finset Cell} {ai : MinesweeperAI} {c : Cell}
    (hc : c ∉ M) (h : Sound M ai) : Sound M (ai.mark_safe c) := by
  obtain ⟨h1, h2, h3⟩ := h
  refine ⟨h1, ?_, ?_⟩
  · intro x hx
    rcases Finset.mem_insert.mp hx with rfl | hx
    · exact hc
    · exact h2 x hx
  · intro s hs
    rcases List.mem_map.mp hs with ⟨t, ht, rfl⟩
    exact sentenceTrue_mark_safe hc (h3 t ht)

theorem sound_mark_mine {M : Finset Cell} {ai : MinesweeperAI} {c : Cell}
    (hc : c ∈ M) (h : Sound M ai) : Sound M (ai.mark_mine c) := by
  obtain ⟨h1, h2, h3⟩ := h
  refine ⟨Finset.insert_subset_iff.mpr ⟨hc, h1⟩, h2, ?_⟩
  intro s hs
  rcases List.mem_map.mp hs with ⟨t, ht, rfl⟩
  exact sentenceTrue_mark_mine hc (h3 t ht)

theorem sound_mark_safe_all {M : Finset Cell} {ai : MinesweeperAI} {cs : Finset Cell}
    (hcs : ∀ c ∈ cs, c ∉ M) (h : Sound M ai) : Sound M (ai.mark_safe_all cs) := by
  obtain ⟨h1, h2, h3⟩ := h
  refine ⟨h1, ?_, ?_⟩
  · intro x hx
    rcases Finset.mem_union.mp hx with hx | hx
    · exact h2 x hx
    · exact hcs x hx
  · intro s hs
    rcases List.mem_map.mp hs with ⟨t, ht, rfl⟩
    have hT := h3 t ht
    unfold SentenceTrue at *
    have he : (t.cells \ cs) ∩ M = t.cells ∩ M := by
      ext x
      simp only [Finset.mem_inter, Finset.mem_sdiff]
      constructor
      · rintro ⟨⟨ha, _⟩, hb⟩; exact ⟨ha, hb⟩
      · rintro ⟨ha, hb⟩; exact ⟨⟨ha, fun hx => hcs x hx hb⟩, hb⟩
    simpa [he] using hT

theorem sound_mark_mine_all {M : Finset Cell} {ai : MinesweeperAI} {cs : Finset Cell}
    (hcs : cs ⊆ M) (h : Sound M ai) : Sound M (ai.mark_mine_all cs) := by
  obtain ⟨h1, h2, h3⟩ := h
  refine ⟨Finset.union_subset h1 hcs, h2, ?_⟩
  intro s hs
  rcases List.mem_map.mp hs with ⟨t, ht, rfl⟩
  have hT := h3 t ht
  unfold SentenceTrue at *
  have hset : (t.cells \ cs) ∩ M = (t.cells ∩ M) \ (t.cells ∩ cs) := by
    ext x
    simp only [Finset.mem_inter, Finset.mem_sdiff]
    constructor
    · rintro ⟨⟨ha, hb⟩, hm⟩; exact ⟨⟨ha, hm⟩, fun hx => hb hx.2⟩
    · rintro ⟨⟨ha, hm⟩, hb⟩; exact ⟨⟨ha, fun hx => hb ⟨ha, hx⟩⟩, hm⟩
  have hsub : t.cells ∩ cs ⊆ t.cells ∩ M := by
    intro x hx
    rcases Finset.mem_inter.mp hx with ⟨ha, hb⟩
    exact Finset.mem_inter.mpr ⟨ha, hcs hb⟩
  have hle := Finset.card_le_card hsub
  simp only [hset, Finset.card_sdiff hsub]
  omega

/-! ## The certainty queries of a true sentence are sound -/

theorem known_safes_not_mine {M : Finset Cell} {s : Sentence} {cs : Finset Cell}
    (hT : SentenceTrue M s) (h : s.known_safes = some cs) : ∀ c ∈ cs, c ∉ M := by
  unfold Sentence.known_safes at h
  by_cases h0 : s.count = 0
  · rw [if_pos h0] at h
    have h' : s.cells = cs := by injection h
    subst h'
    intro c hc hM
    unfold SentenceTrue at hT
    have h1 : (s.cells ∩ M).card = 0 := by omega
    rw [Finset.card_eq_zero] at h1
    have h2 : c ∈ s.cells ∩ M := Finset.mem_inter.mpr ⟨hc, hM⟩
    rw [h1] at h2
    exact absurd h2 (Finset.not_mem_empty c)
  · rw [if_neg h0] at h
    exact absurd h (by simp)

theorem known_mines_is_mine {M : Finset Cell} {s : Sentence} {cs : Finset Cell}
    (hT : SentenceTrue M s) (h : s.known_mines = some cs) : ∀ c ∈ cs, c ∈ M := by
  unfold Sentence.known_mines at h
  by_cases h0 : (s.cells.card : Int) = s.count
  · rw [if_pos h0] at h
    have h' : s.cells = cs := by injection h
    subst h'
    intro c hc
    unfold SentenceTrue at hT
    have hle : (s.cells ∩ M).card ≤ s.cells.card :=
      Finset.card_le_card Finset.inter_subset_left
    have he : s.cells ∩ M = s.cells :=
      Finset.eq_of_subset_of_card_le Finset.inter_subset_left (by omega)
    have h2 : c ∈ s.cells ∩ M := he.symm ▸ hc
    exact (Finset.mem_inter.mp h2).2
  · rw [if_neg h0] at h
    exact absurd h (by simp)

/-! ## Soundness is preserved by the certainty sweep -/

theorem getD_mem_or_eq {α : Type} (l : List α) (i : Nat) (d : α) :
    l.getD i d ∈ l ∨ l.getD i d = d := by
  induction l generalizing i with
  | nil =>
    right
    cases i <;> rfl
  | cons x xs ih =>
    cases i with
    | zero =>
      left
      have hx : (x :: xs).getD 0 d = x := rfl
      rw [hx]
      exact List.mem_cons_self x xs
    | succ n =>
      have hx : (x :: xs).getD (n + 1) d = xs.getD n d := rfl
      rw [hx]
      rcases ih n with h | h
      · exact Or.inl (List.mem_cons_of_mem x h)
      · exact Or.inr h

theorem sound_getD {M : Finset Cell} {ai : MinesweeperAI} (h : Sound M ai) (i : Nat) :
    SentenceTrue M (ai.knowledge.getD i ⟨∅, 0⟩) := by
  rcases getD_mem_or_eq ai.knowledge i ⟨∅, 0⟩ with hm | he
  · exact h.2.2 _ hm
  · rw [he]
    unfold SentenceTrue
    simp

theorem sound_sweepSafes {M : Finset Cell} (ai : MinesweeperAI) (i : Nat)
    (h : Sound M ai) : Sound M (sweepSafes ai i) := by
  unfold sweepSafes
  split
  · rename_i cs heq
    split
    · exact sound_mark_safe_all (known_safes_not_mine (sound_getD h i) heq) h
    · exact h
  · exact h

theorem sound_sweepMines {M : Finset Cell} (ai : MinesweeperAI) (i : Nat)
    (h : Sound M ai) : Sound M (sweepMines ai i) := by
  unfold sweepMines
  split
  · rename_i cs heq
    split
    · refine sound_mark_mine_all ?_ h
      intro c hc
      exact known_mines_is_mine (sound_getD h i) heq c hc
    · exact h
  · exact h

theorem sound_sweepStep {M : Finset Cell} (ai : MinesweeperAI) (i : Nat)
    (h : Sound M ai) : Sound M (sweepStep ai i) :=
  sound_sweepMines _ _ (sound_sweepSafes _ _ h)

theorem sound_foldl_sweepStep {M : Finset Cell} (l : List Nat) (ai : MinesweeperAI)
    (h : Sound M ai) : Sound M (l.foldl sweepStep ai) := by
  induction l generalizing ai with
  | nil => exact h
  | cons x xs ih => exact ih _ (sound_sweepStep _ _ h)

theorem sound_sweep {M : Finset Cell} (ai : MinesweeperAI) (h : Sound M ai) :
    Sound M ai.sweep :=
  sound_foldl_sweepStep _ _ h

/-! ## Soundness is preserved by subset deduction -/

theorem sound_deduce {M : Finset Cell} (ai : MinesweeperAI) (h : Sound M ai) :
    Sound M ai.deduce_knowledge := by
  obtain ⟨h1, h2, h3⟩ := h
  refine ⟨h1, h2, ?_⟩
  intro s hs
  unfold MinesweeperAI.deduce_knowledge at hs
  rcases List.mem_append.mp hs with hs | hs
  · exact h3 s hs
  · rcases List.mem_flatMap.mp hs with ⟨A, hA, hsA⟩
    rcases List.mem_filterMap.mp hsA with ⟨B, hB, hAB⟩
    split at hAB
    · rename_i hguard
      obtain ⟨hne, hpos, hsub⟩ := hguard
      have hABe : (⟨symmetric_difference A.cells B.cells, A.count - B.count⟩ : Sentence) = s := by
        injection hAB
      subst hABe
      have hTA := h3 A hA
      have hTB := h3 B hB
      unfold SentenceTrue at *
      unfold symmetric_difference
      have hBA : B.cells \ A.cells = ∅ := Finset.sdiff_eq_empty_iff_subset.mpr hsub
      have hset : (A.cells \ B.cells) ∩ M = (A.cells ∩ M) \ (B.cells ∩ M) := by
        ext x
        simp only [Finset.mem_inter, Finset.mem_sdiff]
        constructor
        · rintro ⟨⟨ha, hb⟩, hm⟩; exact ⟨⟨ha, hm⟩, fun hx => hb hx.1⟩
        · rintro ⟨⟨ha, hm⟩, hb⟩; exact ⟨⟨ha, fun hx => hb ⟨hx, hm⟩⟩, hm⟩
      have hsub2 : B.cells ∩ M ⊆ A.cells ∩ M := by
        intro x hx
        rcases Finset.mem_inter.mp hx with ⟨ha, hb⟩
        exact Finset.mem_inter.mpr ⟨hsub ha, hb⟩
      have hle := Finset.card_le_card hsub2
      dsimp only
      rw [hBA, Finset.union_empty, hset, Finset.card_sdiff hsub2]
      omega
    · exact absurd hAB (by simp)

/-! ## Cleanup only ever removes entries, so it preserves soundness -/

theorem mem_removeFirst {l : List TSentence} {v : Sentence} {x : TSentence}
    (h : x ∈ removeFirst l v) : x ∈ l := by
  induction l with
  | nil => simp [removeFirst] at h
  | cons y ys ih =>
    unfold removeFirst at h
    split at h
    · exact List.mem_cons_of_mem y h
    · rcases List.mem_cons.mp h with rfl | h
      · exact List.mem_cons_self _ _
      · exact List.mem_cons_of_mem y (ih h)

theorem mem_cleanInner {sent : TSentence} :
    ∀ (fuel : Nat) (l : List TSentence) (j : Nat) (x : TSentence),
      x ∈ cleanInner sent l j fuel → x ∈ l := by
  intro fuel
  induction fuel with
  | zero =>
    intro l j x h
    simpa [cleanInner] using h
  | succ n ih =>
    intro l j x h
    unfold cleanInner at h
    split at h
    · have h2 := ih _ _ _ h
      split at h2
      · exact mem_removeFirst h2
      · exact h2
    · exact h

theorem mem_cleanOuter :
    ∀ (fuel : Nat) (l : List TSentence) (i : Nat) (x : TSentence),
      x ∈ cleanOuter l i fuel → x ∈ l := by
  intro fuel
  induction fuel with
  | zero =>
    intro l i x h
    simpa [cleanOuter] using h
  | succ n ih =>
    intro l i x h
    unfold cleanOuter at h
    split at h
    · have h2 := mem_cleanInner _ _ _ _ (ih _ _ _ h)
      split at h2
      · exact mem_removeFirst h2
      · exact h2
    · exact h

theorem val_mem_of_mem_tagFrom :
    ∀ (n : Nat) (l : List Sentence) (t : TSentence), t ∈ tagFrom n l → t.val ∈ l := by
  intro n l
  induction l generalizing n with
  | nil =>
    intro t h
    simp [tagFrom] at h
  | cons s rest ih =>
    intro t h
    unfold tagFrom at h
    rcases List.mem_cons.mp h with rfl | h
    · exact List.mem_cons_self s rest
    · exact List.mem_cons_of_mem s (ih _ _ h)

theorem sound_clean {M : Finset Cell} (ai : MinesweeperAI) (h : Sound M ai) :
    Sound M ai.clean_knowledge := by
  obtain ⟨h1, h2, h3⟩ := h
  refine ⟨h1, h2, ?_⟩
  intro s hs
  unfold MinesweeperAI.clean_knowledge at hs
  rcases List.mem_map.mp hs with ⟨t, ht, rfl⟩
  exact h3 _ (val_mem_of_mem_tagFrom _ _ _ (mem_cleanOuter _ _ _ _ ht))

/-! ## Soundness is preserved by a well-formed `add_knowledge` call -/

theorem sound_after_mark {M : Finset Cell} {ai : MinesweeperAI} {cell : Cell}
    (hc : cell ∉ M) (h : Sound M ai) : Sound M (ai.after_mark cell) :=
  sound_mark_safe hc h

theorem sound_add_knowledge_mid {M : Finset Cell} {ai : MinesweeperAI} {cell : Cell}
    {count : Int} (hobs : ValidObs ai.height ai.width M cell count) (h : Sound M ai) :
    Sound M (ai.add_knowledge_mid cell count) := by
  obtain ⟨hcM, hcount⟩ := hobs
  have h2 : Sound M (ai.after_mark cell) := sound_after_mark hcM h
  unfold MinesweeperAI.add_knowledge_mid
  split
  · obtain ⟨g1, g2, g3⟩ := h2
    refine ⟨g1, g2, ?_⟩
    intro s hs
    rcases List.mem_append.mp hs with hs | hs
    · exact g3 s hs
    · rcases List.mem_singleton.mp hs with rfl
      unfold MinesweeperAI.new_sentence SentenceTrue
      dsimp only
      have hfil :
          (((ai.after_mark cell).get_neighbors cell).filter
              (fun c => decide (c ∉ (ai.after_mark cell).safes))).toFinset ∩ M =
            ((ai.after_mark cell).get_neighbors cell).toFinset ∩ M := by
        ext x
        simp only [Finset.mem_inter, List.mem_toFinset, List.mem_filter, decide_eq_true_eq]
        constructor
        · rintro ⟨⟨hx, _⟩, hm⟩; exact ⟨hx, hm⟩
        · rintro ⟨hx, hm⟩; exact ⟨⟨hx, fun hsafe => g2 x hsafe hm⟩, hm⟩
      rw [hfil]
      exact hcount
  · exact h2

theorem sound_fold_safe {M : Finset Cell} :
    ∀ (l : List Cell) (ai : MinesweeperAI), (∀ n ∈ l, n ∉ M) → Sound M ai →
      Sound M (l.foldl (fun t n => if n ∉ t.safes then t.mark_safe n else t) ai) := by
  intro l
  induction l with
  | nil => intro ai _ h; exact h
  | cons x xs ih =>
    intro ai hl h
    rw [List.foldl_cons]
    refine ih _ (fun n hn => hl n (List.mem_cons_of_mem x hn)) ?_
    by_cases hx : x ∉ ai.safes
    · rw [if_pos hx]
      exact sound_mark_safe (hl x (List.mem_cons_self x xs)) h
    · rw [if_neg hx]
      exact h

theorem sound_add_knowledge_pre {M : Finset Cell} {ai : MinesweeperAI} {cell : Cell}
    {count : Int} (hobs : ValidObs ai.height ai.width M cell count) (h : Sound M ai) :
    Sound M (ai.add_knowledge_pre cell count) := by
  unfold MinesweeperAI.add_knowledge_pre
  split
  · rename_i hc0
    refine sound_fold_safe _ _ ?_ (sound_add_knowledge_mid hobs h)
    intro n hn hnM
    obtain ⟨hcM, hcount⟩ := hobs
    rw [hc0] at hcount
    have hcard : (((get_neighbors_core ai.height ai.width cell).toFinset ∩ M).card) = 0 := by
      omega
    rw [Finset.card_eq_zero] at hcard
    have hmem : n ∈ (get_neighbors_core ai.height ai.width cell).toFinset ∩ M :=
      Finset.mem_inter.mpr ⟨List.mem_toFinset.mpr hn, hnM⟩
    rw [hcard] at hmem
    exact absurd hmem (Finset.not_mem_empty n)
  · exact sound_add_knowledge_mid hobs h

theorem sound_add_knowledge {M : Finset Cell} {ai : MinesweeperAI} {cell : Cell}
    {count : Int} (hobs : ValidObs ai.height ai.width M cell count) (h : Sound M ai) :
    Sound M (ai.add_knowledge cell count) := by
  unfold MinesweeperAI.add_knowledge
  split
  · exact sound_add_knowledge_pre hobs h
  · exact sound_clean _ (sound_deduce _ (sound_sweep _ (sound_add_knowledge_pre hobs h)))

/-! ## Frame facts: what each stage of `add_knowledge` may change -/

/-- Relation between a state and a later stage of the same `add_knowledge`
call: the grid dimensions and the move history are unchanged and the
confirmed-safe set only grows. -/
def Frames (a b : MinesweeperAI) : Prop :=
  b.height = a.height ∧ b.width = a.width ∧ b.moves_made = a.moves_made ∧ a.safes ⊆ b.safes

theorem frames_refl (a : MinesweeperAI) : Frames a a :=
  ⟨rfl, rfl, rfl, Finset.Subset.refl _⟩

theorem frames_trans {a b c : MinesweeperAI} (h1 : Frames a b) (h2 : Frames b c) :
    Frames a c :=
  ⟨h2.1.trans h1.1, h2.2.1.trans h1.2.1, h2.2.2.1.trans h1.2.2.1, h1.2.2.2.trans h2.2.2.2⟩

theorem frames_mark_safe (ai : MinesweeperAI) (c : Cell) : Frames ai (ai.mark_safe c) :=
  ⟨rfl, rfl, rfl, Finset.subset_insert c ai.safes⟩

theorem frames_mark_safe_all (ai : MinesweeperAI) (cs : Finset Cell) :
    Frames ai (ai.mark_safe_all cs) :=
  ⟨rfl, rfl, rfl, Finset.subset_union_left⟩

theorem frames_mark_mine_all (ai : MinesweeperAI) (cs : Finset Cell) :
    Frames ai (ai.mark_mine_all cs) :=
  ⟨rfl, rfl, rfl, Finset.Subset.refl _⟩

theorem frames_sweepSafes (ai : MinesweeperAI) (i : Nat) : Frames ai (sweepSafes ai i) := by
  unfold sweepSafes
  split
  · split
    · exact frames_mark_safe_all _ _
    · exact frames_refl _
  · exact frames_refl _

theorem frames_sweepMines (ai : MinesweeperAI) (i : Nat) : Frames ai (sweepMines ai i) := by
  unfold sweepMines
  split
  · split
    · exact frames_mark_mine_all _ _
    · exact frames_refl _
  · exact frames_refl _

theorem frames_sweepStep (ai : MinesweeperAI) (i : Nat) : Frames ai (sweepStep ai i) :=
  frames_trans (frames_sweepSafes ai i) (frames_sweepMines _ i)

theorem frames_foldl_sweepStep : ∀ (l : List Nat) (ai : MinesweeperAI),
    Frames ai (l.foldl sweepStep ai) := by
  intro l
  induction l with
  | nil => intro ai; exact frames_refl ai
  | cons x xs ih =>
    intro ai
    rw [List.foldl_cons]
    exact frames_trans (frames_sweepStep ai x) (ih _)

theorem frames_sweep (ai : MinesweeperAI) : Frames ai ai.sweep :=
  frames_foldl_sweepStep _ _

theorem frames_deduce (ai : MinesweeperAI) : Frames ai ai.deduce_knowledge :=
  ⟨rfl, rfl, rfl, Finset.Subset.refl _⟩

theorem frames_clean (ai : MinesweeperAI) : Frames ai ai.clean_knowledge :=
  ⟨rfl, rfl, rfl, Finset.Subset.refl _⟩

theorem frames_fold_safe : ∀ (l : List Cell) (ai : MinesweeperAI),
    Frames ai (l.foldl (fun t n => if n ∉ t.safes then t.mark_safe n else t) ai) := by
  intro l
  induction l with
  | nil => intro ai; exact frames_refl ai
  | cons x xs ih =>
    intro ai
    rw [List.foldl_cons]
    refine frames_trans ?_ (ih _)
    by_cases hx : x ∉ ai.safes
    · rw [if_pos hx]; exact frames_mark_safe ai x
    · rw [if_neg hx]; exact frames_refl ai

theorem frames_mid_vs_after_mark (ai : MinesweeperAI) (cell : Cell) (count : Int) :
    Frames (ai.after_mark cell) (ai.add_knowledge_mid cell count) := by
  unfold MinesweeperAI.add_knowledge_mid
  split
  · exact ⟨rfl, rfl, rfl, Finset.Subset.refl _⟩
  · exact frames_refl _

theorem frames_pre_vs_after_mark (ai : MinesweeperAI) (cell : Cell) (count : Int) :
    Frames (ai.after_mark cell) (ai.add_knowledge_pre cell count) := by
  unfold MinesweeperAI.add_knowledge_pre
  split
  · exact frames_trans (frames_mid_vs_after_mark ai cell count) (frames_fold_safe _ _)
  · exact frames_mid_vs_after_mark ai cell count

theorem frames_add_vs_after_mark (ai : MinesweeperAI) (cell : Cell) (count : Int) :
    Frames (ai.after_mark cell) (ai.add_knowledge cell count) := by
  unfold MinesweeperAI.add_knowledge
  split
  · exact frames_pre_vs_after_mark ai cell count
  · exact frames_trans (frames_pre_vs_after_mark ai cell count)
      (frames_trans (frames_sweep _) (frames_trans (frames_deduce _) (frames_clean _)))

theorem add_knowledge_moves (ai : MinesweeperAI) (cell : Cell) (count : Int) :
    (ai.add_knowledge cell count).moves_made = insert cell ai.moves_made :=
  (frames_add_vs_after_mark ai cell count).2.2.1

theorem add_knowledge_safes (ai : MinesweeperAI) (cell : Cell) (count : Int) :
    insert cell ai.safes ⊆ (ai.add_knowledge cell count).safes :=
  (frames_add_vs_after_mark ai cell count).2.2.2

theorem add_knowledge_height (ai : MinesweeperAI) (cell : Cell) (count : Int) :
    (ai.add_knowledge cell count).height = ai.height :=
  (frames_add_vs_after_mark ai cell count).1

theorem add_knowledge_width (ai : MinesweeperAI) (cell : Cell) (count : Int) :
    (ai.add_knowledge cell count).width = ai.width :=
  (frames_add_vs_after_mark ai cell count).2.1

/-- Running a list of observations from a state preserves soundness. -/
theorem sound_run {hgt wdt : Int} {M : Finset Cell} :
    ∀ (obs : List (Cell × Int)) (ai : MinesweeperAI),
      ai.height = hgt → ai.width = wdt → Sound M ai →
      (∀ o ∈ obs, ValidObs hgt wdt M o.1 o.2) →
      Sound M (obs.foldl (fun b o => b.add_knowledge o.1 o.2) ai) := by
  intro obs
  induction obs with
  | nil => intro ai _ _ h _; exact h
  | cons o rest ih =>
    intro ai hh hw h hobs
    rw [List.foldl_cons]
    refine ih _ ?_ ?_ ?_ ?_
    · rw [add_knowledge_height, hh]
    · rw [add_knowledge_width, hw]
    · refine sound_add_knowledge ?_ h
      rw [hh, hw]
      exact hobs o (List.mem_cons_self o rest)
    · intro p hp
      exact hobs p (List.mem_cons_of_mem o hp)

/-!
## The claims

Each claim of the specification gets one theorem below.  The concrete
traces are consistent, reachable runs: every `add_knowledge` call in
them reports the true neighbour mine count of a non-mine cell on the
grid named in the doc comment.
-/

/-- C1, counterexample.  On an 8×8 grid with mines `{(0,0),(0,2)}`, after
probing (2,1) (count 0) and (1,1) (count 2), the knowledge base holds
exactly `A = {(0,0),(0,1),(0,2)} = 2`.  The ingest of (1,0) (count 1)
appends `B = {(0,0),(0,1)} = 1` and its subset deduction yields
`{(0,2)} = 1` — yet the call returns with (0,2) NOT confirmed-hazard,
because the certainty sweep ran before the deduction and is not re-run. -/
theorem c1_counterexample :
    (⟨{((0 : Int), (2 : Int))}, 1⟩ : Sentence) ∈
        ((((MinesweeperAI.init 8 8).add_knowledge (2, 1) 0).add_knowledge (1, 1) 2).add_knowledge
          (1, 0) 1).knowledge ∧
      ((0 : Int), (2 : Int)) ∉
        ((((MinesweeperAI.init 8 8).add_knowledge (2, 1) 0).add_knowledge (1, 1) 2).add_knowledge
          (1, 0) 1).mines := by
  decide

/-- C1, amended.  `add_knowledge` runs the certainty sweep once, before
subset deduction; after deduction only cleanup runs, so no further
certainty marks happen inside the call: the confirmed-hazard and
confirmed-safe sets returned by `add_knowledge` are exactly those right
after the sweep stage.  Statements produced by deduction (such as
`{(0,2)} = 1` in the scenario) therefore stay unacted-on until a later
ingest; the state at return need not be a fixpoint. -/
theorem c1_amended (ai : MinesweeperAI) (cell : Cell) (count : Int) :
    (ai.add_knowledge cell count).mines = (ai.after_sweep cell count).mines ∧
    (ai.add_knowledge cell count).safes = (ai.after_sweep cell count).safes := by
  unfold MinesweeperAI.add_knowledge MinesweeperAI.after_sweep
  by_cases h : (ai.add_knowledge_pre cell count).knowledge.length < 1
  · rw [if_pos h, if_pos h]
    exact ⟨rfl, rfl⟩
  · rw [if_neg h, if_neg h]
    exact ⟨rfl, rfl⟩

/-- C2, failing run.  On a 3×3 grid with mines `{(0,0),(0,1)}`, probe
(2,0) and (2,2) (counts 0), then (1,0) (count 2, which confirms both
mines), then (1,1) (count 2).  The sentence built for (1,1) filters only
`self.safes`, not `self.mines`, so the confirmed mine (0,0) sits in the
cell set of a statement of the returned knowledge base — violating the
claimed invariant. -/
theorem c2_failing_eval :
    ((0 : Int), (0 : Int)) ∈
        (((((MinesweeperAI.init 3 3).add_knowledge (2, 0) 0).add_knowledge (2, 2) 0).add_knowledge
          (1, 0) 2).add_knowledge (1, 1) 2).mines ∧
      ∃ st ∈ (((((MinesweeperAI.init 3 3).add_knowledge (2, 0) 0).add_knowledge
          (2, 2) 0).add_knowledge (1, 0) 2).add_knowledge (1, 1) 2).knowledge,
        ((0 : Int), (0 : Int)) ∈ st.cells := by
  decide

/-- C3, counterexample.  `get_neighbors` does not exclude the cell
itself: at the corner (0,0) of an 8×8 grid it returns 4 coordinates
(not 3), among them (0,0) itself. -/
theorem c3_counterexample :
    (get_neighbors_core 8 8 (0, 0)).length = 4 ∧
      ((0 : Int), (0 : Int)) ∈ get_neighbors_core 8 8 (0, 0) := by
  decide

/-- C3, amended.  For every coordinate, `get_neighbors` returns exactly
the in-bounds coordinates within one row and one column of the cell,
INCLUDING the cell itself; hence a corner yields 4 results, a non-corner
edge cell 6, and an interior cell 9 (shown on the 8×8 grid). -/
theorem c3_amended :
    (∀ (h w i j : Int) (p : Cell),
        p ∈ get_neighbors_core h w (i, j) ↔
          (i - 1 ≤ p.1 ∧ p.1 ≤ i + 1 ∧ j - 1 ≤ p.2 ∧ p.2 ≤ j + 1 ∧
           0 ≤ p.1 ∧ p.1 < h ∧ 0 ≤ p.2 ∧ p.2 < w)) ∧
    (get_neighbors_core 8 8 (0, 0)).length = 4 ∧
    (get_neighbors_core 8 8 (0, 3)).length = 6 ∧
    (get_neighbors_core 8 8 (3, 3)).length = 9 := by
  refine ⟨?_, by decide, by decide, by decide⟩
  intro h w i j p
  unfold get_neighbors_core
  simp only [List.mem_flatMap, List.mem_filterMap]
  constructor
  · rintro ⟨r, hr, c, hc, hif⟩
    simp only [List.mem_cons, List.not_mem_nil, or_false] at hr hc
    split at hif
    · rename_i hbound
      have hp : ((i, j).1 - r, (i, j).2 - c) = p := by injection hif
      obtain ⟨b1, b2, b3, b4⟩ := hbound
      subst hp
      simp only at *
      rcases hr with rfl | rfl | rfl <;> rcases hc with rfl | rfl | rfl <;>
        exact ⟨by omega, by omega, by omega, by omega, b1, b2, b3, b4⟩
    · exact absurd hif (by simp)
  · rintro ⟨h1, h2, h3, h4, h5, h6, h7, h8⟩
    refine ⟨(i, j).1 - p.1, ?_, (i, j).2 - p.2, ?_, ?_⟩
    · simp only [List.mem_cons, List.not_mem_nil, or_false]
      omega
    · simp only [List.mem_cons, List.not_mem_nil, or_false]
      omega
    · have e1 : (i, j).1 - ((i, j).1 - p.1) = p.1 := by omega
      have e2 : (i, j).2 - ((i, j).2 - p.2) = p.2 := by omega
      rw [e1, e2, if_pos ⟨h5, h6, h7, h8⟩]

/-- C4, counterexample.  For two distinct statement objects with EQUAL
cell sets the code adds nothing at all: `deduce_knowledge` skips the
pair (guard `subsentence.cells != sentence.cells`), so no count-0
empty-cell statement is ever produced, contrary to the claim's reading
that such a statement is produced and later discarded by cleanup. -/
theorem c4_counterexample :
    (MinesweeperAI.deduce_knowledge
        ⟨2, 2, ∅, ∅, ∅, [⟨{((0 : Int), (0 : Int))}, 1⟩, ⟨{((0 : Int), (0 : Int))}, 1⟩]⟩).knowledge =
      [⟨{((0 : Int), (0 : Int))}, 1⟩, ⟨{((0 : Int), (0 : Int))}, 1⟩] ∧
    (⟨∅, 0⟩ : Sentence) ∉ (MinesweeperAI.deduce_knowledge
        ⟨2, 2, ∅, ∅, ∅, [⟨{((0 : Int), (0 : Int))}, 1⟩, ⟨{((0 : Int), (0 : Int))}, 1⟩]⟩).knowledge := by
  decide

/-- C4, amended.  For every ordered pair of statements `(A, B)` in the
knowledge base whose cell sets differ, with `B.cells` non-empty and
`B.cells ⊆ A.cells` (hence a strict subset), `deduce_knowledge` appends
a statement with cells `A.cells \ B.cells` (the code's symmetric
difference, which coincides with the set difference under the subset
guard) and count `A.count - B.count`.  Pairs with equal cell sets are
skipped outright, producing nothing. -/
theorem c4_amended :
    (∀ (ai : MinesweeperAI) (A B : Sentence), A ∈ ai.knowledge → B ∈ ai.knowledge →
        B.cells ≠ A.cells → B.cells.Nonempty → B.cells ⊆ A.cells →
        (⟨A.cells \ B.cells, A.count - B.count⟩ : Sentence) ∈
          (ai.deduce_knowledge).knowledge) ∧
    (∀ ai : MinesweeperAI, (∀ A ∈ ai.knowledge, ∀ B ∈ ai.knowledge, B.cells = A.cells) →
        (ai.deduce_knowledge).knowledge = ai.knowledge) := by
  constructor
  · intro ai A B hA hB hne hnonempty hsub
    unfold MinesweeperAI.deduce_knowledge
    dsimp only
    refine List.mem_append.mpr (Or.inr ?_)
    refine List.mem_flatMap.mpr ⟨A, hA, ?_⟩
    refine List.mem_filterMap.mpr ⟨B, hB, ?_⟩
    rw [if_pos ⟨hne, Finset.card_pos.mpr hnonempty, hsub⟩]
    unfold symmetric_difference
    rw [Finset.sdiff_eq_empty_iff_subset.mpr hsub, Finset.union_empty]
  · intro ai hall
    unfold MinesweeperAI.deduce_knowledge
    dsimp only
    have hded : ai.knowledge.flatMap (fun sentence =>
        ai.knowledge.filterMap (fun subsentence =>
          if subsentence.cells ≠ sentence.cells ∧ 0 < subsentence.cells.card ∧
              subsentence.cells ⊆ sentence.cells
          then some (⟨symmetric_difference sentence.cells subsentence.cells,
                      sentence.count - subsentence.count⟩ : Sentence)
          else none)) = [] := by
      rw [List.flatMap_eq_nil_iff]
      intro A hA
      rw [List.filterMap_eq_nil_iff]
      intro B hB
      rw [if_neg]
      rintro ⟨hne, -, -⟩
      exact hne (hall A hA B hB)
    rw [hded, List.append_nil]

/-- C4, witness for the amended theorem at a concrete knowledge base
`[{(0,0),(0,1)} = 2, {(0,0)} = 1]`. -/
theorem c4_amended_witness :
    (⟨({((0 : Int), (0 : Int)), ((0 : Int), (1 : Int))} : Finset Cell) \
        {((0 : Int), (0 : Int))}, 2 - 1⟩ : Sentence) ∈
      (MinesweeperAI.deduce_knowledge
        ⟨2, 2, ∅, ∅, ∅,
          [⟨{((0 : Int), (0 : Int)), ((0 : Int), (1 : Int))}, 2⟩,
           ⟨{((0 : Int), (0 : Int))}, 1⟩]⟩).knowledge :=
  c4_amended.1
    ⟨2, 2, ∅, ∅, ∅,
      [⟨{((0 : Int), (0 : Int)), ((0 : Int), (1 : Int))}, 2⟩, ⟨{((0 : Int), (0 : Int))}, 1⟩]⟩
    ⟨{((0 : Int), (0 : Int)), ((0 : Int), (1 : Int))}, 2⟩
    ⟨{((0 : Int), (0 : Int))}, 1⟩
    (by decide) (by decide) (by decide) (by decide) (by decide)

/-- C5, failing input.  `clean_knowledge` removes from the list it is
iterating over: on the knowledge base `[∅=0, ∅=0, ∅=0]` (three distinct
empty statements) the cursor skips past the third one, and the cleanup
returns `[∅=0]` — a statement with an empty cell set survives, violating
the claimed postcondition. -/
theorem c5_failing_eval :
    (MinesweeperAI.clean_knowledge
        ⟨3, 3, ∅, ∅, ∅, [⟨∅, 0⟩, ⟨∅, 0⟩, ⟨∅, 0⟩]⟩).knowledge = [⟨∅, 0⟩] := by
  decide

/-- C6, counterexample.  On a 3×3 grid with the 4 mines
`{(0,0),(0,1),(1,0),(1,1)}`, probing all five non-mine cells (with their
true counts) leaves `moves_made` with 9 − 4 cells — by the claim the
query must return nothing — but (0,0) is adjacent to no safe cell, is
never confirmed, and `make_random_move` compares against
`len(self.mines) = 3`, so it returns the (mine!) cell (0,0). -/
theorem c6_counterexample :
    (((((((MinesweeperAI.init 3 3).add_knowledge (0, 2) 2).add_knowledge (1, 2) 2).add_knowledge
          (2, 0) 2).add_knowledge (2, 1) 2).add_knowledge (2, 2) 1).moves_made.card : Int) =
        3 * 3 - 4 ∧
      ((((((MinesweeperAI.init 3 3).add_knowledge (0, 2) 2).add_knowledge (1, 2) 2).add_knowledge
          (2, 0) 2).add_knowledge (2, 1) 2).add_knowledge (2, 2) 1).make_random_move
        [(0, 0)] = some (0, 0) := by
  decide

/-- C6, amended.  `make_random_move` returns nothing iff
`|moves_made| = height·width − |confirmed_hazard|` (i.e. every
not-yet-probed cell is a KNOWN mine — the code uses `len(self.mines)`,
not the grid's total hazard count); otherwise the rejection-sampling
loop returns the first drawn coordinate that is neither in `moves_made`
nor in `confirmed_hazard`. -/
theorem c6_amended (ai : MinesweeperAI) (randoms : List Cell) :
    ((ai.moves_made.card : Int) = ai.height * ai.width - (ai.mines.card : Int) →
      ai.make_random_move randoms = none) ∧
    ((ai.moves_made.card : Int) ≠ ai.height * ai.width - (ai.mines.card : Int) →
      (∃ m ∈ randoms, m ∉ ai.moves_made ∧ m ∉ ai.mines) →
      ∃ r, ai.make_random_move randoms = some r ∧ r ∉ ai.moves_made ∧ r ∉ ai.mines) := by
  unfold MinesweeperAI.make_random_move
  constructor
  · intro hg
    rw [if_pos hg]
  · intro hg hex
    rw [if_neg hg]
    obtain ⟨m, hm, hq⟩ := hex
    cases hfind : randoms.find? (fun m => decide (m ∉ ai.moves_made ∧ m ∉ ai.mines)) with
    | none =>
      exfalso
      have hnone := List.find?_eq_none.mp hfind m hm
      simp only [decide_eq_true_eq] at hnone
      exact hnone ⟨hq.1, hq.2⟩
    | some r =>
      have h1 := List.find?_some hfind
      simp only [decide_eq_true_eq] at h1
      exact ⟨r, rfl, h1.1, h1.2⟩

/-- C6, witness for the amended theorem: a 1×1 board with the single
cell probed returns nothing; a fresh 2×2 board with the draw stream
`[(0,0)]` returns (0,0). -/
theorem c6_amended_witness :
    MinesweeperAI.make_random_move ⟨1, 1, {((0 : Int), (0 : Int))}, ∅, ∅, []⟩ [] = none ∧
    ∃ r, MinesweeperAI.make_random_move ⟨2, 2, ∅, ∅, ∅, []⟩ [((0 : Int), (0 : Int))] = some r ∧
      r ∉ (⟨2, 2, ∅, ∅, ∅, []⟩ : MinesweeperAI).moves_made ∧
      r ∉ (⟨2, 2, ∅, ∅, ∅, []⟩ : MinesweeperAI).mines := by
  constructor
  · exact (c6_amended ⟨1, 1, {((0 : Int), (0 : Int))}, ∅, ∅, []⟩ []).1 (by decide)
  · exact (c6_amended ⟨2, 2, ∅, ∅, ∅, []⟩ [((0 : Int), (0 : Int))]).2 (by decide) (by decide)

/-- C7, confirmed.  For every grid mine set `M` and every sequence of
well-formed observations on that grid (probed cell not a mine, reported
count the true neighbour mine count), after running the whole sequence
through `add_knowledge` from a fresh agent, the confirmed-hazard and
confirmed-safe sets are disjoint.  (Soundness: every mark the engine
ever makes is grounded in a true sentence, so `self.mines ⊆ M` and
`self.safes ∩ M = ∅` throughout.) -/
theorem c7_confirmed (hgt wdt : Int) (M : Finset Cell) (obs : List (Cell × Int))
    (hobs : ∀ o ∈ obs, ValidObs hgt wdt M o.1 o.2) :
    (obs.foldl (fun b o => b.add_knowledge o.1 o.2) (MinesweeperAI.init hgt wdt)).mines ∩
      (obs.foldl (fun b o => b.add_knowledge o.1 o.2) (MinesweeperAI.init hgt wdt)).safes =
      ∅ := by
  have hS : Sound M (obs.foldl (fun b o => b.add_knowledge o.1 o.2)
      (MinesweeperAI.init hgt wdt)) := by
    refine sound_run obs _ rfl rfl ⟨?_, ?_, ?_⟩ hobs
    · intro x hx
      exact absurd hx (Finset.not_mem_empty x)
    · intro c hc
      exact absurd hc (Finset.not_mem_empty c)
    · intro s hs
      exact absurd hs (List.not_mem_nil s)
  rw [Finset.eq_empty_iff_forall_not_mem]
  intro x hx
  rcases Finset.mem_inter.mp hx with ⟨hm, hsf⟩
  exact hS.2.1 x hsf (hS.1 hm)

/-- C7, witness: a 1×1 empty grid with the single observation
`((0,0), 0)`. -/
theorem c7_confirmed_witness :
    (([((((0 : Int), (0 : Int)) : Cell), (0 : Int))]).foldl
        (fun b o => b.add_knowledge o.1 o.2) (MinesweeperAI.init 1 1)).mines ∩
      (([((((0 : Int), (0 : Int)) : Cell), (0 : Int))]).foldl
        (fun b o => b.add_knowledge o.1 o.2) (MinesweeperAI.init 1 1)).safes = ∅ :=
  c7_confirmed 1 1 ∅ [((0, 0), 0)] (by decide)

/-- C8, confirmed.  Under the reachable-state invariant
`moves_made ⊆ safes` (established by C9), `make_safe_move` returns some
confirmed-safe unplayed coordinate whenever one exists and nothing when
none exists.  The embedding of the query is a pure function of the
state — it takes the state and returns only an `Option Cell`, so it
cannot mutate `safes`, `moves_made` or the statement list. -/
theorem c8_confirmed (ai : MinesweeperAI) (hmv : ai.moves_made ⊆ ai.safes) :
    ((∃ c ∈ ai.safes, c ∉ ai.moves_made) →
      ∃ c, ai.make_safe_move = some c ∧ c ∈ ai.safes ∧ c ∉ ai.moves_made) ∧
    ((¬∃ c ∈ ai.safes, c ∉ ai.moves_made) → ai.make_safe_move = none) := by
  unfold MinesweeperAI.make_safe_move
  by_cases hcard : ai.safes.card = ai.moves_made.card
  · have heq : ai.moves_made = ai.safes :=
      Finset.eq_of_subset_of_card_le hmv (le_of_eq hcard)
    rw [if_pos hcard]
    constructor
    · rintro ⟨c, hc, hcm⟩
      exact absurd (heq ▸ hc) hcm
    · intro
      rfl
  · rw [if_neg hcard]
    have hssub : ai.moves_made ⊂ ai.safes := by
      refine Finset.ssubset_iff_subset_ne.mpr ⟨hmv, ?_⟩
      intro he
      exact hcard (by rw [he])
    obtain ⟨c, hc, hcm⟩ := Finset.exists_of_ssubset hssub
    constructor
    · intro _
      cases hfind : (ai.safes.sort cellLe).find? (fun c => decide (c ∉ ai.moves_made)) with
      | none =>
        exfalso
        have hnone := List.find?_eq_none.mp hfind c ((Finset.mem_sort cellLe).mpr hc)
        simp only [decide_eq_true_eq] at hnone
        exact hnone hcm
      | some r =>
        refine ⟨r, rfl, ?_, ?_⟩
        · exact (Finset.mem_sort cellLe).mp (List.mem_of_find?_eq_some hfind)
        · have hr := List.find?_some hfind
          simpa using hr
    · intro hno
      exact absurd ⟨c, hc, hcm⟩ hno

/-- C8, witness: a state with `safes = {(0,0)}` and no move made. -/
theorem c8_confirmed_witness :
    (⟨1, 1, ∅, ∅, {((0 : Int), (0 : Int))}, []⟩ : MinesweeperAI).moves_made ⊆
        (⟨1, 1, ∅, ∅, {((0 : Int), (0 : Int))}, []⟩ : MinesweeperAI).safes ∧
    ∃ c, (⟨1, 1, ∅, ∅, {((0 : Int), (0 : Int))}, []⟩ : MinesweeperAI).make_safe_move = some c ∧
      c ∈ (⟨1, 1, ∅, ∅, {((0 : Int), (0 : Int))}, []⟩ : MinesweeperAI).safes ∧
      c ∉ (⟨1, 1, ∅, ∅, {((0 : Int), (0 : Int))}, []⟩ : MinesweeperAI).moves_made :=
  ⟨by decide,
    (c8_confirmed ⟨1, 1, ∅, ∅, {((0 : Int), (0 : Int))}, []⟩ (by decide)).1 (by decide)⟩

/-- C9, confirmed.  `moves_made ⊆ safes` is preserved by `add_knowledge`
(the only mutating operation: the ingested cell is inserted into both
sets and nothing ever removes from `safes`), and whenever
`len(self.safes) == len(self.moves_made)` the two sets are equal — the
fact `make_safe_move`'s early return relies on. -/
theorem c9_confirmed (ai : MinesweeperAI) (cell : Cell) (count : Int)
    (hmv : ai.moves_made ⊆ ai.safes) :
    (ai.add_knowledge cell count).moves_made ⊆ (ai.add_knowledge cell count).safes ∧
    (ai.safes.card = ai.moves_made.card → ai.safes = ai.moves_made) := by
  constructor
  · rw [add_knowledge_moves]
    intro x hx
    rcases Finset.mem_insert.mp hx with rfl | hx
    · exact add_knowledge_safes _ _ _ (Finset.mem_insert_self _ _)
    · exact add_knowledge_safes _ _ _ (Finset.mem_insert_of_mem (hmv hx))
  · intro hcard
    exact (Finset.eq_of_subset_of_card_le hmv (le_of_eq hcard)).symm

/-- C9, witness: one ingest on a fresh 2×2 agent. -/
theorem c9_confirmed_witness :
    ((MinesweeperAI.init 2 2).add_knowledge (0, 0) 0).moves_made ⊆
        ((MinesweeperAI.init 2 2).add_knowledge (0, 0) 0).safes ∧
    ((MinesweeperAI.init 2 2).safes.card = (MinesweeperAI.init 2 2).moves_made.card →
        (MinesweeperAI.init 2 2).safes = (MinesweeperAI.init 2 2).moves_made) :=
  c9_confirmed (MinesweeperAI.init 2 2) (0, 0) 0 (by decide)

/-- C10, confirmed.  When `count > 0`, `add_knowledge` appends exactly
one new statement, and its cell set does not contain the ingested cell:
the cell was just marked safe, and the statement builder filters out
every coordinate in `self.safes` — even though `get_neighbors` includes
the cell itself among its results. -/
theorem c10_confirmed (ai : MinesweeperAI) (cell : Cell) (count : Int) (hc : 0 < count) :
    (ai.add_knowledge_pre cell count).knowledge =
      (ai.after_mark cell).knowledge ++
        [(ai.after_mark cell).new_sentence ((ai.after_mark cell).get_neighbors cell) count] ∧
    cell ∉ ((ai.after_mark cell).new_sentence
        ((ai.after_mark cell).get_neighbors cell) count).cells := by
  constructor
  · unfold MinesweeperAI.add_knowledge_pre MinesweeperAI.add_knowledge_mid
    rw [if_neg (by omega : ¬count = 0), if_pos hc]
  · unfold MinesweeperAI.new_sentence
    dsimp only
    intro hmem
    rw [List.mem_toFinset, List.mem_filter, decide_eq_true_eq] at hmem
    exact hmem.2 (Finset.mem_insert_self cell _)

/-- C10, witness at `cell = (1,1)`, `count = 1` on a fresh 8×8 agent. -/
theorem c10_confirmed_witness :
    (0 : Int) < 1 ∧
    ((1 : Int), (1 : Int)) ∉ (((MinesweeperAI.init 8 8).after_mark (1, 1)).new_sentence
        (((MinesweeperAI.init 8 8).after_mark (1, 1)).get_neighbors (1, 1)) 1).cells :=
  ⟨by decide, (c10_confirmed (MinesweeperAI.init 8 8) (1, 1) 1 (by decide)).2⟩

end Minesweeper
